import Mathlib

/-!
Verification of the GitGuard review pipeline.

The JavaScript sources are shallowly embedded: JS strings are Lean
strings, with the character-level operations (split, trim, toLowerCase,
includes, startsWith, substring) modelled on the underlying character
lists; JS numbers that hold integral values (token counts, risk scores,
millisecond timestamps) are Nat or Int; JS null and undefined become
Option; the in-memory JS Map keeps insertion order of keys and is
modelled as an association list with the same update semantics.
-/

/-- Model of JS String.prototype.toLowerCase (ASCII-relevant part). -/
def strLower (s : String) : String :=
  String.mk (s.data.map Char.toLower)

/-- Model of JS String.prototype.startsWith. -/
def strStartsWith (s pat : String) : Bool :=
  pat.data.isPrefixOf s.data

/-- Model of JS String.prototype.includes: some suffix of s has pat as a prefix. -/
def strIncludes (s pat : String) : Bool :=
  s.data.tails.any fun t => pat.data.isPrefixOf t

/-- Model of JS String.prototype.trim: drop leading and trailing whitespace. -/
def strTrim (s : String) : String :=
  String.mk (((s.data.dropWhile Char.isWhitespace).reverse.dropWhile Char.isWhitespace).reverse)

/-- Model of JS String.prototype.split with a one-character separator:
splitting never yields the empty list (the empty string splits to [""]). -/
def splitOnCh (sep : Char) (cs : List Char) : List (List Char) :=
  cs.foldr
    (fun c acc =>
      match acc with
      | [] => [[c]]
      | h :: t => if c = sep then [] :: h :: t else (c :: h) :: t)
    [[]]

/-- JS content.split(String.fromCharCode(10)) on a Lean string. -/
def splitLines (s : String) : List String :=
  (splitOnCh '\n' s.data).map String.mk

/-- JS array.join with a newline separator. -/
def joinLines (ls : List String) : String :=
  String.mk (List.intercalate ['\n'] (ls.map String.data))

/-- JS String.prototype.substring(1): drop the first character. -/
def dropMarker (l : String) : String :=
  String.mk (l.data.drop 1)

/-!
## src/diffCleaner.js
-/

/-- Condition of the addition branch of cleanFileDiff:
line.startsWith(plus) and not line.startsWith(plus plus plus). -/
def isAddLine (l : String) : Bool :=
  strStartsWith l "+" && !(strStartsWith l "+++")

/-- Condition of the context branch of cleanFileDiff: line starts with a space. -/
def isCtxLine (l : String) : Bool :=
  strStartsWith l " "

/-- The per-line loop of cleanFileDiff (src/diffCleaner.js lines 57-86),
carrying the inHunk flag and the accumulated cleanedLines. -/
def cleanLoop : Bool → List String → List String → List String
  | _, acc, [] => acc
  | inHunk, acc, l :: ls =>
    if strStartsWith l "---" || strStartsWith l "+++" then
      cleanLoop inHunk acc ls
    else if strStartsWith l "@@" then
      cleanLoop true acc ls
    else if inHunk then
      if isAddLine l then
        cleanLoop inHunk (acc ++ [dropMarker l]) ls
      else if isCtxLine l && !acc.isEmpty then
        cleanLoop inHunk (acc ++ [dropMarker l]) ls
      else
        cleanLoop inHunk acc ls
    else
      cleanLoop inHunk acc ls

/-- The kept lines of cleanFileDiff before joining and trimming. -/
def cleanFileDiffLines (lines : List String) : List String :=
  cleanLoop false [] lines

/-- cleanFileDiff (src/diffCleaner.js lines 52-89): empty input returns the
empty string; otherwise split into lines, run the loop, join and trim. -/
def cleanFileDiff (fileDiff : String) : String :=
  if fileDiff = "" then ""
  else strTrim (joinLines (cleanFileDiffLines (splitLines fileDiff)))

/-- The static extension-to-language table of detectLanguage. -/
def extLanguageMap : List (String × String) :=
  [("js", "javascript"), ("jsx", "javascript"), ("ts", "typescript"),
   ("tsx", "typescript"), ("py", "python"), ("java", "java"),
   ("cpp", "cpp"), ("c", "c"), ("cs", "csharp"), ("go", "go"),
   ("rs", "rust"), ("rb", "ruby"), ("php", "php"), ("swift", "swift"),
   ("kt", "kotlin"), ("scala", "scala"), ("sh", "bash"), ("bash", "bash"),
   ("sql", "sql"), ("html", "html"), ("css", "css"), ("scss", "css"),
   ("json", "json"), ("xml", "xml"), ("yaml", "yaml"), ("yml", "yaml"),
   ("md", "markdown"), ("vue", "vue"), ("svelte", "svelte")]

/-- detectLanguage (src/diffCleaner.js lines 8-44): last component of the
filename split on a dot, lowercased, looked up in the table, with the
catch-all result for unknown extensions. -/
def detectLanguage (filename : String) : String :=
  let ext := strLower (String.mk ((splitOnCh '.' filename.data).getLastD []))
  ((extLanguageMap.find? fun p => p.1 == ext).map Prod.snd).getD "unknown"

/-- One extracted per-file section of the raw diff, as produced by
extractFileDiffs: the filename from the b path and the patch text
starting at the first hunk header. -/
structure FileDiff where
  filename : String
  patch : String
deriving DecidableEq

/-- One cleaned file change as built by cleanAndStructureDiff.  The
optional host metadata (status, additions, deletions) is merged in only
when present and is not read by any function modelled here, so it is
omitted. -/
structure FileInfo where
  filename : String
  language : String
  changes : String
deriving DecidableEq

/-- The per-file loop of cleanAndStructureDiff (src/diffCleaner.js lines
191-225): clean each extracted file diff and skip files whose cleaned
content is empty or trims to empty. -/
def cleanAndStructureFiles (fds : List FileDiff) : List FileInfo :=
  fds.filterMap fun fd =>
    let c := cleanFileDiff fd.patch
    if c = "" ∨ strTrim c = "" then none
    else some ⟨fd.filename, detectLanguage fd.filename, c⟩

/-!
## src/utils/tokenManager.js
-/

/-- estimateTokens (src/utils/tokenManager.js lines 12-15): zero for a
falsy text, otherwise the ceiling of length times 0.25.  The JS
expression Math.ceil(len * 0.25) is exact in floating point and equals
the Nat expression (len + 3) / 4. -/
def estimateTokens (text : String) : Nat :=
  if text = "" then 0 else (text.data.length + 3) / 4

/-- The character-count fallback split of an oversized line
(src/utils/tokenManager.js lines 53-57): substring(i, i + maxChars) for
i stepping by maxChars.  The JS loop does not terminate for maxChars = 0;
that case is unreachable from chunkFold (maxChars is four times a
positive token limit) and is modelled as the empty list. -/
def chopChars (maxChars : Nat) (l : List Char) : List (List Char) :=
  if maxChars = 0 then []
  else if l = [] then []
  else if l.length ≤ maxChars then [l]
  else l.take maxChars :: chopChars maxChars (l.drop maxChars)
termination_by l.length
decreasing_by
  simp only [List.length_drop]
  rename_i h1 _ h3
  omega

/-- The mutable loop state of chunkFileContent: finished chunks (each a
list of lines; a raw character piece of an oversized line is a
one-element list), the current chunk, and its running token count. -/
structure ChunkState where
  chunks : List (List String)
  current : List String
  currentTokens : Nat
deriving DecidableEq

/-- The per-line loop of chunkFileContent (src/utils/tokenManager.js
lines 41-71).  An oversized line first flushes the current chunk, then
pushes its character pieces as separate chunks; otherwise the line is
flushed into a new chunk or appended, guarded by the running token
count. -/
def chunkFold (maxTokens : Nat) : ChunkState → List String → ChunkState
  | st, [] => st
  | st, line :: rest =>
    let lineTokens := estimateTokens line
    if maxTokens < lineTokens then
      let flushed := if st.current = [] then st.chunks else st.chunks ++ [st.current]
      let pieces := (chopChars (maxTokens * 4) line.data).map fun p => [String.mk p]
      chunkFold maxTokens ⟨flushed ++ pieces, [], 0⟩ rest
    else if maxTokens < st.currentTokens + lineTokens ∧ st.current ≠ [] then
      chunkFold maxTokens ⟨st.chunks ++ [st.current], [line], lineTokens⟩ rest
    else
      chunkFold maxTokens ⟨st.chunks, st.current ++ [line], st.currentTokens + lineTokens⟩ rest

/-- The chunk list built by the loop of chunkFileContent, each chunk as
its list of lines, including the final push of a nonempty current
chunk (src/utils/tokenManager.js lines 74-76). -/
def chunkFileContentCore (lines : List String) (maxTokens : Nat) : List (List String) :=
  let fin := chunkFold maxTokens ⟨[], [], 0⟩ lines
  fin.chunks ++ if fin.current = [] then [] else [fin.current]

/-- chunkFileContent (src/utils/tokenManager.js lines 23-79): empty or
all-whitespace content gives no chunks; content within the limit is a
single chunk; otherwise the line loop runs and each chunk is joined
with newlines (a raw character piece is its own chunk). -/
def chunkFileContent (content : String) (maxTokens : Nat) : List String :=
  if content = "" ∨ strTrim content = "" then []
  else if estimateTokens content ≤ maxTokens then [content]
  else (chunkFileContentCore (splitLines content) maxTokens).map joinLines

/-- The keyword list of calculateFileRisk (src/utils/tokenManager.js line 151). -/
def securityKeywords : List String :=
  ["password", "secret", "token", "api_key", "auth", "credential"]

/-- calculateFileRisk (src/utils/tokenManager.js lines 126-157): filename
patterns, core directories, change-size thresholds and security keywords,
capped at 100. -/
def calculateFileRisk (file : FileInfo) : Nat :=
  let filename := strLower file.filename
  let changes := file.changes
  let r1 := if strIncludes filename ".env" || strIncludes filename "config" ||
      strIncludes filename "secret" || strIncludes filename "credential" ||
      strIncludes filename "auth" || strIncludes filename "password" then 50 else 0
  let r2 := r1 + (if strIncludes filename "/src/" || strIncludes filename "/lib/" ||
      strIncludes filename "/app/" || strIncludes filename "/core/" then 20 else 0)
  let changeSize := changes.data.length
  let r3 := r2 + (if 10000 < changeSize then 20
      else if 5000 < changeSize then 10
      else if 1000 < changeSize then 5 else 0)
  let r4 := r3 + (if securityKeywords.any (fun k => strIncludes (strLower changes) k)
      then 15 else 0)
  min r4 100

/-- prioritizeFiles (src/utils/tokenManager.js lines 103-119): a copy of
the input sorted by descending file risk.  The JS comparator
(a, b) => riskOf b - riskOf a under the stable ES2019 Array sort is a
stable sort by the relation riskOf b <= riskOf a, modelled by the stable
List.mergeSort. -/
def prioritizeFiles (files : List FileInfo) : List FileInfo :=
  files.mergeSort fun a b => decide (calculateFileRisk b ≤ calculateFileRisk a)

/-!
## src/llmClient.js (the worker pipeline LLM client)
-/

/-- One issue of the JSON contract enforced by the worker pipeline client
(file, line, type, severity, title, message, suggestion).  A missing line
is null; message holds the detailed description text. -/
structure LlmIssue where
  file : String
  line : Option Int
  type : String
  severity : String
  title : String
  message : String
  suggestion : String
deriving DecidableEq

/-- The severity table of calculateDeterministicRiskScore
(src/llmClient.js lines 93-98) with the or-else fallback of line 102:
a severity string outside the four capitalised keys weighs 5. -/
def detWeight (severity : String) : Nat :=
  if severity = "Critical" then 40
  else if severity = "High" then 20
  else if severity = "Medium" then 10
  else if severity = "Low" then 5
  else 5

/-- calculateDeterministicRiskScore (src/llmClient.js lines 90-106):
zero for a missing or empty issue list, otherwise the severity weights
summed and capped at 100. -/
def calculateDeterministicRiskScore (issues : List LlmIssue) : Nat :=
  if issues.length = 0 then 0
  else min 100 (issues.foldl (fun total i => total + detWeight i.severity) 0)

/-- The parsed JSON body returned by the model in the worker pipeline:
summary, the model-supplied risk_score and the issue list.  A missing
summary or issue list is modelled as the empty string or empty list,
which the consuming code treats identically. -/
structure LlmResponse where
  summary : String
  risk_score : Int
  issues : List LlmIssue
deriving DecidableEq

/-- The deterministic post-processing step of sendToLLM
(src/llmClient.js lines 116-119): the model-supplied risk_score is
overwritten with the recomputed deterministic score. -/
def sendToLLMPost (r : LlmResponse) : LlmResponse :=
  { r with risk_score := (calculateDeterministicRiskScore r.issues : Int) }

/-!
## src/services/llmService.js
-/

/-- One issue of the JSON contract enforced by LLMService.analyzeDiff
(file, category, severity, description, current_code, suggested_fix). -/
structure SvcIssue where
  file : String
  category : String
  severity : String
  description : String
  current_code : String
  suggested_fix : String
deriving DecidableEq

/-- The per-issue weight of LLMService.calculateRiskScore
(src/services/llmService.js lines 22-35): a category and severity table
with a severity-only fallback. -/
def svcIssueWeight (i : SvcIssue) : Nat :=
  let severity := strLower i.severity
  let category := strLower i.category
  if category = "security" ∧ severity = "high" then 40
  else if category = "bug" ∧ severity = "high" then 30
  else if category = "performance" ∧ severity = "medium" then 15
  else if category = "quality" ∧ severity = "low" then 5
  else if severity = "high" then 20
  else if severity = "medium" then 10
  else 5

/-- LLMService.calculateRiskScore (src/services/llmService.js lines
18-39): zero for a missing or empty issue list, otherwise the issue
weights summed and capped at 100. -/
def calculateRiskScore (issues : List SvcIssue) : Nat :=
  if issues.length = 0 then 0
  else min (issues.foldl (fun total i => total + svcIssueWeight i) 0) 100

/-- The parsed JSON body returned by the model in the service pipeline. -/
structure SvcParsed where
  summary : String
  risk_score : Int
  issues : List SvcIssue
deriving DecidableEq

/-- Token usage as reported by the completion API. -/
structure Usage where
  promptTokens : Nat
  completionTokens : Nat
  totalTokens : Nat
deriving DecidableEq

/-- The analysis object returned by LLMService.analyzeDiff. -/
structure SvcAnalysis where
  summary : String
  risk_score : Int
  issues : List SvcIssue
  usage : Usage
deriving DecidableEq

/-- The deterministic post-processing step of LLMService.analyzeDiff
(src/services/llmService.js lines 90-102): the parsed body with its
risk_score recomputed deterministically and the usage attached. -/
def analyzeDiffResult (parsed : SvcParsed) (usage : Usage) : SvcAnalysis :=
  ⟨parsed.summary, (calculateRiskScore parsed.issues : Int), parsed.issues, usage⟩

/-!
## The worker pipeline aggregator (aggregateJSONResponses) and job handler
-/

/-- One per-unit result collected by sendBatchToLLM: either a successful
response with usage, or a failed marker without a response. -/
structure BatchResponse where
  failed : Bool
  response : Option LlmResponse
  usage : Usage
  filename : String
deriving DecidableEq

/-- The filter of line 12 of the worker source: not failed and a truthy
response object. -/
def isSuccessful (r : BatchResponse) : Bool :=
  !r.failed && r.response.isSome

/-- resp.response.summary with the or-else empty-string default. -/
def respSummary (r : BatchResponse) : String :=
  match r.response with
  | some q => q.summary
  | none => ""

/-- resp.response.issues; the guard on a missing issue list coincides
with the empty list. -/
def respIssues (r : BatchResponse) : List LlmIssue :=
  match r.response with
  | some q => q.issues
  | none => []

/-- JS template-literal rendering of the issue line field inside the
de-duplication key: null renders as the string null. -/
def lineKeyStr : Option Int → String
  | none => "null"
  | some n => toString n

/-- The de-duplication key of line 33 of the worker source:
file, line and message joined with dashes. -/
def issueKey (i : LlmIssue) : String :=
  i.file ++ "-" ++ lineKeyStr i.line ++ "-" ++ i.message

/-- JS Map.prototype.set on an insertion-ordered association list: an
existing key keeps its position and gets the new value, a new key is
appended. -/
def jsMapSet (m : List (String × LlmIssue)) (k : String) (v : LlmIssue) :
    List (String × LlmIssue) :=
  if m.any fun p => p.1 = k then
    m.map fun p => if p.1 = k then (k, v) else p
  else m ++ [(k, v)]

/-- The uniqueIssuesMap pass of aggregateJSONResponses (worker source
lines 31-39): each issue is written into the map under its key, then the
values are read back in key-insertion order. -/
def dedupIssues (issues : List LlmIssue) : List LlmIssue :=
  (issues.foldl (fun m i => jsMapSet m (issueKey i) i) []).map Prod.snd

/-- The keys of the issue list in order of first occurrence: the key
insertion order of the JS Map built by the de-duplication pass. -/
def firstOccKeys (issues : List LlmIssue) : List String :=
  issues.foldl (fun ks i => if issueKey i ∈ ks then ks else ks ++ [issueKey i]) []

/-- A per-unit result with the model-supplied risk_score normalised to
zero: two batches agree on eraseRisk exactly when they differ only in the
numeric risk_score values their model outputs carried. -/
def eraseRisk (r : BatchResponse) : BatchResponse :=
  { r with response := r.response.map fun q => { q with risk_score := 0 } }

/-- The aggregated review before the risk score is attached. -/
structure Aggregated where
  summary : String
  issues : List LlmIssue
  usage : Usage
deriving DecidableEq

/-- aggregateJSONResponses (worker source lines 11-46): null when no
unit succeeded, otherwise the concatenated summaries (trimmed), the
de-duplicated flattened issues, and usage summed over successful
units. -/
def aggregateJSONResponses (responses : List BatchResponse) : Option Aggregated :=
  let successful := responses.filter isSuccessful
  if successful.length = 0 then none
  else
    let allIssues := successful.foldl (fun acc r => acc ++ respIssues r) []
    let combinedSummary := successful.foldl (fun s r => s ++ respSummary r ++ "\n\n") ""
    let tp := successful.foldl (fun t r => t + r.usage.promptTokens) 0
    let tc := successful.foldl (fun t r => t + r.usage.completionTokens) 0
    some ⟨strTrim combinedSummary, dedupIssues allIssues, ⟨tp, tc, tp + tc⟩⟩

/-- The aggregated risk recompute of the worker job handler (worker
source lines 75-76): the same capitalised severity table with or-else 5,
capped at 100. -/
def aggregatedRiskScore (issues : List LlmIssue) : Nat :=
  min 100 (issues.foldl (fun s i => s + detWeight i.severity) 0)

/-- The aggregate with the recomputed risk score attached (the mutation
of line 76 of the worker source). -/
structure ScoredAggregated where
  summary : String
  issues : List LlmIssue
  usage : Usage
  risk_score : Nat
deriving DecidableEq

/-- The pull-request data carried by a review job. -/
structure PrData where
  repository : String
  pullRequestNumber : Nat
  title : String
  author : String
deriving DecidableEq

/-- The review record saved by the worker job handler (worker source
lines 79-86, omitting the wall-clock processing time). -/
structure ReviewRecord where
  repository : String
  pullRequestNumber : Nat
  title : String
  author : String
  llmResponse : ScoredAggregated
deriving DecidableEq

/-- The terminal status of a queue job: a handler that returns reports
the job completed; a handler that throws reports it failed, making it
eligible for the retry policy. -/
inductive JobStatus
  | completed
  | failed
deriving DecidableEq

/-- What the worker job did: the saved review record if any, the posted
comment body if any, and the reported job status. -/
structure WorkerOutcome where
  saved : Option ReviewRecord
  posted : Option String
  status : JobStatus
deriving DecidableEq

/-- JS rendering of issue.line with the or-else question mark; line 0 is
falsy in JS and also renders as the question mark. -/
def lineBodyStr : Option Int → String
  | none => "?"
  | some n => if n = 0 then "?" else toString n

/-- One issue line of the comment body (worker source line 91). -/
def commentIssueLine (i : LlmIssue) : String :=
  "- **[" ++ i.type ++ "]** " ++ i.file ++ ":" ++ lineBodyStr i.line ++ " - " ++
    i.title ++ "\n  *" ++ i.message ++ "*\n  > Suggestion: " ++ i.suggestion

/-- The comment body built by the worker job handler (worker source
lines 90-91). -/
def commentBody (agg : ScoredAggregated) : String :=
  "## 🤖 GitGuard AI Review\n\n**Risk Score: " ++ toString agg.risk_score ++
    "/100**\n\n" ++ agg.summary ++ "\n\n### Issues Found: " ++
    toString agg.issues.length ++ "\n" ++
    String.intercalate "\n\n" (agg.issues.map commentIssueLine)

/-- The deterministic part of the worker job handler (worker source
lines 48-105) after the LLM batch returned: a disabled repository or a
null aggregate returns normally (the job completes); otherwise the
review record is saved, the comment is posted when enabled, and the job
completes. -/
def workerJob (enabled : Bool) (responses : List BatchResponse)
    (commentBotEnabled : Bool) (prData : PrData) : WorkerOutcome :=
  if !enabled then ⟨none, none, .completed⟩
  else
    match aggregateJSONResponses responses with
    | none => ⟨none, none, .completed⟩
    | some agg =>
      let scored : ScoredAggregated :=
        ⟨agg.summary, agg.issues, agg.usage, aggregatedRiskScore agg.issues⟩
      let record : ReviewRecord :=
        ⟨prData.repository, prData.pullRequestNumber, prData.title, prData.author, scored⟩
      ⟨some record, if commentBotEnabled then some (commentBody scored) else none, .completed⟩

/-!
## src/models/Policy.js and ReviewService.evaluatePolicy
-/

/-- The policy schema (src/models/Policy.js lines 3-9): a risk
threshold, the high-security block flag, and a warn-on-issue-count
field that no evaluation code reads. -/
structure Policy where
  blockRiskThreshold : Nat
  blockOnHighSecurity : Bool
  warnOnIssueCount : Nat
deriving DecidableEq

/-- The decision attached to a review. -/
structure PolicyDecision where
  isBlocked : Bool
  reason : String
deriving DecidableEq

/-- ReviewService.evaluatePolicy (service pipeline source lines 16-48).
The stored policy for the repository is passed as an Option: none models
a repository without a configured policy.  Blocking reasons are the risk
threshold comparison and, under the flag, an issue whose lowercased
category is security with lowercased severity exactly high. -/
def evaluatePolicy (policy : Option Policy) (analysis : SvcAnalysis) : PolicyDecision :=
  match policy with
  | none => ⟨false, ""⟩
  | some p =>
    let rs1 : List String :=
      if (p.blockRiskThreshold : Int) < analysis.risk_score then
        ["Risk score " ++ toString analysis.risk_score ++ " exceeds threshold of " ++
          toString p.blockRiskThreshold]
      else []
    let hasHighSecurity := analysis.issues.any fun i =>
      strLower i.category == "security" && strLower i.severity == "high"
    let rs2 := rs1 ++
      (if p.blockOnHighSecurity && hasHighSecurity then
        ["High-severity security vulnerability detected"]
      else [])
    if 0 < rs2.length then ⟨true, String.intercalate ". " rs2⟩ else ⟨false, ""⟩

/-!
## GitHubAppService.getInstallationAccessToken (the token cache)
-/

/-- A cached installation token: the token value and its stored expiry,
already reduced by the safety margin, in epoch milliseconds. -/
structure CachedToken where
  token : String
  expiresAt : Int
deriving DecidableEq

/-- The process-wide token cache keyed by installation id, in insertion
order like the JS Map. -/
abbrev TokenCache := List (Nat × CachedToken)

/-- JS Map.prototype.get. -/
def cacheGet (c : TokenCache) (id : Nat) : Option CachedToken :=
  (c.find? fun p => p.1 = id).map Prod.snd

/-- JS Map.prototype.set: an existing key keeps its position and gets
the new value, a new key is appended. -/
def cacheSet (c : TokenCache) (id : Nat) (v : CachedToken) : TokenCache :=
  if c.any fun p => p.1 = id then
    c.map fun p => if p.1 = id then (id, v) else p
  else c ++ [(id, v)]

/-- What the host returns on a successful token exchange: the fresh
token and its real expiry in epoch milliseconds. -/
structure ExchangeResult where
  token : String
  expiresAtMs : Int
deriving DecidableEq

/-- The observable result of one getInstallationAccessToken call: the
returned token, the cache afterwards, and whether a mint-and-exchange
round trip happened. -/
structure TokenCallResult where
  token : String
  cache : TokenCache
  exchanged : Bool
deriving DecidableEq

/-- GitHubAppService.getInstallationAccessToken (auth service source
lines 43-86), with the current time and the outcome of the (otherwise
opaque) exchange round trip passed explicitly: a cached entry strictly
ahead of now is returned without any exchange; otherwise the fresh token
is cached with its real expiry minus the 60 second margin and
returned. -/
def getInstallationAccessToken (cache : TokenCache) (now : Int)
    (exchange : ExchangeResult) (id : Nat) : TokenCallResult :=
  match cacheGet cache id with
  | some cached =>
    if now < cached.expiresAt then ⟨cached.token, cache, false⟩
    else
      let e := exchange.expiresAtMs - 60 * 1000
      ⟨exchange.token, cacheSet cache id ⟨exchange.token, e⟩, true⟩
  | none =>
    let e := exchange.expiresAtMs - 60 * 1000
    ⟨exchange.token, cacheSet cache id ⟨exchange.token, e⟩, true⟩

theorem evaluatePolicy_some_isBlocked (p : Policy) (a : SvcAnalysis) :
    (evaluatePolicy (some p) a).isBlocked =
      (decide ((p.blockRiskThreshold : Int) < a.risk_score) ||
        (p.blockOnHighSecurity && a.issues.any fun i =>
          strLower i.category == "security" && strLower i.severity == "high")) := by
  unfold evaluatePolicy
  by_cases h1 : (p.blockRiskThreshold : Int) < a.risk_score <;>
  by_cases h2 : (p.blockOnHighSecurity && a.issues.any fun i =>
      strLower i.category == "security" && strLower i.severity == "high") = true
  all_goals simp [h1, h2]

/-- Claim C1 (corrected).  A PolicyDecision has isBlocked = true exactly
when the risk score strictly exceeds the policy threshold, or the
blockOnHighSecurity flag is set and some finding has category security
with severity exactly high (case-insensitively); there is no issue-count
condition, and severity critical does not trigger the security clause.
Scenario D holds: riskScore 85 under threshold 80 blocks.  Without a
configured policy the decision is never blocked. -/
theorem evaluatePolicy_blocking_characterization (p : Policy) (a : SvcAnalysis) :
    evaluatePolicy none a = ⟨false, ""⟩ ∧
    ((evaluatePolicy (some p) a).isBlocked = true ↔
      ((p.blockRiskThreshold : Int) < a.risk_score ∨
        (p.blockOnHighSecurity = true ∧ ∃ i ∈ a.issues,
          strLower i.category = "security" ∧ strLower i.severity = "high"))) ∧
    (evaluatePolicy (some ⟨80, true, 5⟩) ⟨"", 85, [], ⟨0, 0, 0⟩⟩).isBlocked = true := by
  refine ⟨rfl, ?_, by decide⟩
  rw [evaluatePolicy_some_isBlocked]
  simp [List.any_eq_true]

/-- Claim C1 counterexample: under policy threshold 80 with
blockOnHighSecurity set, a review of risk 10 whose only finding is a
security issue of severity critical is NOT blocked, contradicting the
claimed high-or-critical clause (and the claimed maxIssueCount clause
matches no code at all). -/
theorem evaluatePolicy_critical_not_blocked :
    (evaluatePolicy (some ⟨80, true, 5⟩)
      ⟨"", 10, [⟨"f.js", "security", "critical", "d", "c", "s"⟩], ⟨0, 0, 0⟩⟩).isBlocked = false ∧
    (⟨80, true, 5⟩ : Policy).blockOnHighSecurity = true ∧
    (([⟨"f.js", "security", "critical", "d", "c", "s"⟩] : List SvcIssue).any fun i =>
      strLower i.category == "security" && strLower i.severity == "critical") = true ∧
    ¬(((80 : Nat) : Int) < (10 : Int)) := by decide

theorem zero_success_filter_nil (responses : List BatchResponse)
    (h : ∀ r ∈ responses, isSuccessful r = false) :
    responses.filter isSuccessful = [] := by
  rw [List.filter_eq_nil_iff]
  intro r hr
  simp [h r hr]

/-- Claim C2 (corrected).  When zero units succeeded the aggregation
result is none (no review produced, distinct from a zero-finding
review), no review record is saved and nothing is posted; but the job
handler returns normally, so the job is reported as completed, not
failed. -/
theorem aggregate_zero_success_no_review (responses : List BatchResponse)
    (cbe : Bool) (pd : PrData)
    (h : ∀ r ∈ responses, isSuccessful r = false) :
    aggregateJSONResponses responses = none ∧
    workerJob true responses cbe pd = ⟨none, none, JobStatus.completed⟩ ∧
    ∀ (s : String) (u : Usage), (none : Option Aggregated) ≠ some ⟨s, [], u⟩ := by
  have hfil : responses.filter isSuccessful = [] := zero_success_filter_nil responses h
  have hagg : aggregateJSONResponses responses = none := by
    unfold aggregateJSONResponses
    rw [hfil]
    rfl
  refine ⟨hagg, ?_, by intro s u; simp⟩
  unfold workerJob
  rw [hagg]
  rfl

/-- Claim C2 witness at a concrete all-failed batch. -/
theorem aggregate_zero_success_no_review_witness :
    aggregateJSONResponses [⟨true, none, ⟨0, 0, 0⟩, "a.js"⟩] = none ∧
    workerJob true [⟨true, none, ⟨0, 0, 0⟩, "a.js"⟩] true ⟨"o/r", 1, "t", "a"⟩ =
      ⟨none, none, JobStatus.completed⟩ ∧
    ∀ (s : String) (u : Usage), (none : Option Aggregated) ≠ some ⟨s, [], u⟩ :=
  aggregate_zero_success_no_review [⟨true, none, ⟨0, 0, 0⟩, "a.js"⟩] true ⟨"o/r", 1, "t", "a"⟩
    (by decide)

/-- Claim C2 counterexample: a batch whose only unit failed makes the
worker return normally with status completed — the claim said the job is
reported as failed and retried. -/
theorem worker_zero_success_job_completes :
    workerJob true [⟨true, none, ⟨0, 0, 0⟩, "a.js"⟩] true ⟨"o/r", 1, "t", "a"⟩ =
      ⟨none, none, JobStatus.completed⟩ ∧
    JobStatus.completed ≠ JobStatus.failed := by decide

theorem foldl_add_detWeight :
    ∀ (l : List LlmIssue) (n : Nat),
      l.foldl (fun t i => t + detWeight i.severity) n = n + (l.map fun i => detWeight i.severity).sum := by
  intro l
  induction l with
  | nil => simp
  | cons a t ih => intro n; simp [ih, Nat.add_assoc]

/-- Claim C4 (corrected).  calculateDeterministicRiskScore is the sum of
per-severity weights capped at 100, pure and order-independent, but the
table keys are the capitalised strings Critical/High/Medium/Low
(case-sensitively; anything else weighs 5), so Scenario C holds only
with capitalised severities; with the literal lowercase severities the
score 25 is instead produced by the other scoring function,
LLMService.calculateRiskScore, whose table also weighs category and
severity combinations. -/
theorem risk_scoring_characterization :
    (∀ issues : List LlmIssue,
      calculateDeterministicRiskScore issues =
        min 100 ((issues.map fun i => detWeight i.severity).sum)) ∧
    (∀ l₁ l₂ : List LlmIssue, l₁.Perm l₂ →
      calculateDeterministicRiskScore l₁ = calculateDeterministicRiskScore l₂) ∧
    (∀ issues : List LlmIssue, calculateDeterministicRiskScore issues ≤ 100) ∧
    calculateDeterministicRiskScore
      [⟨"", none, "", "High", "", "", ""⟩, ⟨"", none, "", "Low", "", "", ""⟩] = 25 ∧
    calculateRiskScore [⟨"", "", "high", "", "", ""⟩, ⟨"", "", "low", "", "", ""⟩] = 25 := by
  have hchar : ∀ issues : List LlmIssue,
      calculateDeterministicRiskScore issues =
        min 100 ((issues.map fun i => detWeight i.severity).sum) := by
    intro issues
    unfold calculateDeterministicRiskScore
    cases issues with
    | nil => simp
    | cons a t => simp [foldl_add_detWeight]
  refine ⟨hchar, ?_, ?_, by decide, by decide⟩
  · intro l₁ l₂ hperm
    rw [hchar, hchar, (hperm.map fun i => detWeight i.severity).sum_eq]
  · intro issues
    rw [hchar]
    exact Nat.min_le_left _ _

/-- Claim C4 witness: order independence at a concrete two-element list. -/
theorem risk_scoring_characterization_witness :
    calculateDeterministicRiskScore
      [⟨"", none, "", "High", "", "", ""⟩, ⟨"", none, "", "Low", "", "", ""⟩] =
    calculateDeterministicRiskScore
      [⟨"", none, "", "Low", "", "", ""⟩, ⟨"", none, "", "High", "", "", ""⟩] :=
  risk_scoring_characterization.2.1
    [⟨"", none, "", "High", "", "", ""⟩, ⟨"", none, "", "Low", "", "", ""⟩]
    [⟨"", none, "", "Low", "", "", ""⟩, ⟨"", none, "", "High", "", "", ""⟩]
    (List.Perm.swap _ _ _)

/-- Claim C4 counterexample: the literal Scenario C findings with
lowercase severities score 10 under calculateDeterministicRiskScore, not
the claimed 25. -/
theorem scenarioC_lowercase_scores_ten :
    calculateDeterministicRiskScore
      [⟨"", none, "", "high", "", "", ""⟩, ⟨"", none, "", "low", "", "", ""⟩] = 10 ∧
    (10 : Nat) ≠ 25 := by decide

theorem isSuccessful_eraseRisk (r : BatchResponse) :
    isSuccessful (eraseRisk r) = isSuccessful r := by
  cases r with
  | mk failed response usage filename => cases response <;> rfl

theorem respSummary_eraseRisk (r : BatchResponse) :
    respSummary (eraseRisk r) = respSummary r := by
  cases r with
  | mk failed response usage filename => cases response <;> rfl

theorem respIssues_eraseRisk (r : BatchResponse) :
    respIssues (eraseRisk r) = respIssues r := by
  cases r with
  | mk failed response usage filename => cases response <;> rfl

theorem aggregate_eraseRisk (rs : List BatchResponse) :
    aggregateJSONResponses (rs.map eraseRisk) = aggregateJSONResponses rs := by
  unfold aggregateJSONResponses
  have hfil : (rs.map eraseRisk).filter isSuccessful =
      (rs.filter isSuccessful).map eraseRisk := by
    rw [List.filter_map]
    congr 1
    apply List.filter_congr
    intro r _
    exact isSuccessful_eraseRisk r
  rw [hfil]
  simp only [List.length_map, List.foldl_map, respSummary_eraseRisk, respIssues_eraseRisk]
  rfl

theorem workerJob_eraseRisk (e : Bool) (rs : List BatchResponse) (cbe : Bool) (pd : PrData) :
    workerJob e (rs.map eraseRisk) cbe pd = workerJob e rs cbe pd := by
  unfold workerJob
  rw [aggregate_eraseRisk]

/-- Claim C8 (confirmed).  The model-supplied risk_score is discarded
everywhere: both post-processing steps are invariant under changing it,
and two batches that agree after erasing risk_score yield identical
aggregates, identical stored review records and identical posted
comment bodies. -/
theorem model_risk_score_is_discarded :
    (∀ (r : LlmResponse) (x : Int), sendToLLMPost { r with risk_score := x } = sendToLLMPost r) ∧
    (∀ (p : SvcParsed) (x : Int) (u : Usage),
      analyzeDiffResult { p with risk_score := x } u = analyzeDiffResult p u) ∧
    (∀ (rs₁ rs₂ : List BatchResponse) (e cbe : Bool) (pd : PrData),
      rs₁.map eraseRisk = rs₂.map eraseRisk →
      aggregateJSONResponses rs₁ = aggregateJSONResponses rs₂ ∧
      workerJob e rs₁ cbe pd = workerJob e rs₂ cbe pd) := by
  refine ⟨fun r x => rfl, fun p x u => rfl, ?_⟩
  intro rs₁ rs₂ e cbe pd h
  constructor
  · rw [← aggregate_eraseRisk rs₁, h, aggregate_eraseRisk]
  · rw [← workerJob_eraseRisk e rs₁, h, workerJob_eraseRisk]

/-- Claim C8 witness: two concrete batches differing only in risk_score. -/
theorem model_risk_score_is_discarded_witness :
    aggregateJSONResponses [⟨false, some ⟨"s", 50, [⟨"a.js", some 1, "Bug", "High", "t", "m", "x"⟩]⟩, ⟨1, 2, 3⟩, "a.js"⟩] =
      aggregateJSONResponses [⟨false, some ⟨"s", 99, [⟨"a.js", some 1, "Bug", "High", "t", "m", "x"⟩]⟩, ⟨1, 2, 3⟩, "a.js"⟩] ∧
    workerJob true [⟨false, some ⟨"s", 50, [⟨"a.js", some 1, "Bug", "High", "t", "m", "x"⟩]⟩, ⟨1, 2, 3⟩, "a.js"⟩] true ⟨"o/r", 1, "t", "a"⟩ =
      workerJob true [⟨false, some ⟨"s", 99, [⟨"a.js", some 1, "Bug", "High", "t", "m", "x"⟩]⟩, ⟨1, 2, 3⟩, "a.js"⟩] true ⟨"o/r", 1, "t", "a"⟩ :=
  model_risk_score_is_discarded.2.2
    [⟨false, some ⟨"s", 50, [⟨"a.js", some 1, "Bug", "High", "t", "m", "x"⟩]⟩, ⟨1, 2, 3⟩, "a.js"⟩]
    [⟨false, some ⟨"s", 99, [⟨"a.js", some 1, "Bug", "High", "t", "m", "x"⟩]⟩, ⟨1, 2, 3⟩, "a.js"⟩]
    true true ⟨"o/r", 1, "t", "a"⟩ (by decide)

theorem cacheGet_cacheSet_self (c : TokenCache) (id : Nat) (v : CachedToken) :
    cacheGet (cacheSet c id v) id = some v := by
  unfold cacheSet cacheGet
  by_cases h : (c.any fun p => p.1 = id) = true
  · rw [if_pos h]
    induction c with
    | nil => simp at h
    | cons p t ih =>
      by_cases hp : p.1 = id
      · simp [List.find?_cons, hp]
      · have ht : (t.any fun q => q.1 = id) = true := by
          simpa [List.any_cons, hp] using h
        simpa [List.find?_cons, hp] using ih ht
  · rw [if_neg h]
    have hnone : (c.find? fun p => decide (p.1 = id)) = none := by
      rw [List.find?_eq_none]
      intro p hp
      simp only [decide_eq_true_eq]
      intro hid
      exact h (List.any_eq_true.mpr ⟨p, hp, by simp [hid]⟩)
    rw [List.find?_append, hnone]
    simp [List.find?_cons]

theorem getTok_hit (cache : TokenCache) (now : Int) (f : ExchangeResult) (id : Nat)
    (cached : CachedToken) (hc : cacheGet cache id = some cached)
    (hnow : now < cached.expiresAt) :
    getInstallationAccessToken cache now f id = ⟨cached.token, cache, false⟩ := by
  unfold getInstallationAccessToken
  rw [hc]
  exact if_pos hnow

theorem getTok_none (cache : TokenCache) (now : Int) (f : ExchangeResult) (id : Nat)
    (hc : cacheGet cache id = none) :
    getInstallationAccessToken cache now f id =
      ⟨f.token, cacheSet cache id ⟨f.token, f.expiresAtMs - 60 * 1000⟩, true⟩ := by
  unfold getInstallationAccessToken
  rw [hc]

theorem getTok_stale (cache : TokenCache) (now : Int) (f : ExchangeResult) (id : Nat)
    (cached : CachedToken) (hc : cacheGet cache id = some cached)
    (hnow : ¬now < cached.expiresAt) :
    getInstallationAccessToken cache now f id =
      ⟨f.token, cacheSet cache id ⟨f.token, f.expiresAtMs - 60 * 1000⟩, true⟩ := by
  unfold getInstallationAccessToken
  rw [hc]
  exact if_neg hnow

theorem getTok_cases (cache : TokenCache) (now : Int) (f : ExchangeResult) (id : Nat) :
    (∃ cached, cacheGet cache id = some cached ∧ now < cached.expiresAt ∧
      getInstallationAccessToken cache now f id = ⟨cached.token, cache, false⟩) ∨
    (getInstallationAccessToken cache now f id =
        ⟨f.token, cacheSet cache id ⟨f.token, f.expiresAtMs - 60 * 1000⟩, true⟩ ∧
      ∀ cached, cacheGet cache id = some cached → ¬now < cached.expiresAt) := by
  cases hc : cacheGet cache id with
  | none =>
    right
    refine ⟨getTok_none cache now f id hc, ?_⟩
    intro cached hcc
    exact absurd hcc (by simp)
  | some cached =>
    by_cases hnow : now < cached.expiresAt
    · exact Or.inl ⟨cached, rfl, hnow, getTok_hit cache now f id cached hc hnow⟩
    · right
      refine ⟨getTok_stale cache now f id cached hc hnow, ?_⟩
      intro c hcc
      have hce : cached = c := Option.some_inj.mp hcc
      exact hce ▸ hnow

/-- Claim C7 (confirmed).  The returned token always matches the cached
entry afterwards; a second request within the cached validity window
returns the same token with no exchange and an unchanged cache; a token
is returned from the cache only while its stored expiry (the real expiry
minus the 60 second margin) is strictly in the future; and any call that
exchanges caches the fresh token with that reduced expiry. -/
theorem token_cache_validity (cache : TokenCache) (now1 now2 : Int)
    (f1 f2 : ExchangeResult) (id : Nat) :
    (∃ e, cacheGet (getInstallationAccessToken cache now1 f1 id).cache id = some e ∧
        e.token = (getInstallationAccessToken cache now1 f1 id).token) ∧
    (∀ e, cacheGet (getInstallationAccessToken cache now1 f1 id).cache id = some e →
      now2 < e.expiresAt →
      getInstallationAccessToken (getInstallationAccessToken cache now1 f1 id).cache now2 f2 id =
        ⟨(getInstallationAccessToken cache now1 f1 id).token,
         (getInstallationAccessToken cache now1 f1 id).cache, false⟩) ∧
    ((getInstallationAccessToken cache now1 f1 id).exchanged = false →
      ∃ e, cacheGet cache id = some e ∧ now1 < e.expiresAt ∧
        (getInstallationAccessToken cache now1 f1 id).token = e.token) ∧
    ((getInstallationAccessToken cache now1 f1 id).exchanged = true →
      cacheGet (getInstallationAccessToken cache now1 f1 id).cache id =
        some ⟨f1.token, f1.expiresAtMs - 60 * 1000⟩ ∧
      (getInstallationAccessToken cache now1 f1 id).token = f1.token) := by
  rcases getTok_cases cache now1 f1 id with ⟨cached, hc, hnow, heq⟩ | ⟨heq, hstale⟩
  · rw [heq]
    refine ⟨⟨cached, hc, rfl⟩, ?_, ?_, ?_⟩
    · intro e he hn2
      have hev : e = cached := by
        have he2 : cacheGet cache id = some e := he
        rw [hc] at he2
        exact (Option.some_inj.mp he2).symm
      exact getTok_hit cache now2 f2 id cached hc (hev ▸ hn2)
    · intro _
      exact ⟨cached, hc, hnow, rfl⟩
    · intro htrue
      exact absurd htrue (by simp)
  · rw [heq]
    have hget := cacheGet_cacheSet_self cache id
      (⟨f1.token, f1.expiresAtMs - 60 * 1000⟩ : CachedToken)
    refine ⟨⟨_, hget, rfl⟩, ?_, ?_, ?_⟩
    · intro e he hn2
      have hev : e = ⟨f1.token, f1.expiresAtMs - 60 * 1000⟩ := by
        have he2 : cacheGet (cacheSet cache id ⟨f1.token, f1.expiresAtMs - 60 * 1000⟩) id =
            some e := he
        rw [hget] at he2
        exact (Option.some_inj.mp he2).symm
      exact getTok_hit _ now2 f2 id ⟨f1.token, f1.expiresAtMs - 60 * 1000⟩ hget (hev ▸ hn2)
    · intro hfalse
      exact absurd hfalse (by simp)
    · intro _
      exact ⟨hget, rfl⟩

/-- Claim C7 witness: a concrete mint followed by a cache hit. -/
theorem token_cache_validity_witness :
    getInstallationAccessToken
        (getInstallationAccessToken [] 1000 ⟨"tok1", 500000⟩ 7).cache 2000 ⟨"tok2", 900000⟩ 7 =
      ⟨(getInstallationAccessToken [] 1000 ⟨"tok1", 500000⟩ 7).token,
       (getInstallationAccessToken [] 1000 ⟨"tok1", 500000⟩ 7).cache, false⟩ :=
  (token_cache_validity [] 1000 2000 ⟨"tok1", 500000⟩ ⟨"tok2", 900000⟩ 7).2.1
    ⟨"tok1", 440000⟩ (by decide) (by decide)

theorem fileRisk_le_trans (a b c : FileInfo) :
    decide (calculateFileRisk b ≤ calculateFileRisk a) = true →
    decide (calculateFileRisk c ≤ calculateFileRisk b) = true →
    decide (calculateFileRisk c ≤ calculateFileRisk a) = true := by
  simp only [decide_eq_true_eq]
  exact fun h1 h2 => le_trans h2 h1

theorem fileRisk_le_total (a b : FileInfo) :
    (decide (calculateFileRisk b ≤ calculateFileRisk a) ||
      decide (calculateFileRisk a ≤ calculateFileRisk b)) = true := by
  simp only [Bool.or_eq_true, decide_eq_true_eq]
  exact (Nat.le_total (calculateFileRisk b) (calculateFileRisk a))

/-- Claim C9 (confirmed).  Prioritization returns a permutation of its
input, sorted by descending file risk (a value capped at 100), and any
pair in input order whose risks do not force a swap — in particular any
tie — keeps its relative order. -/
theorem prioritizeFiles_spec (files : List FileInfo) :
    (prioritizeFiles files).Perm files ∧
    (prioritizeFiles files).Pairwise
      (fun a b => calculateFileRisk b ≤ calculateFileRisk a) ∧
    (∀ f : FileInfo, calculateFileRisk f ≤ 100) ∧
    (∀ a b : FileInfo, calculateFileRisk b ≤ calculateFileRisk a →
      [a, b].Sublist files → [a, b].Sublist (prioritizeFiles files)) := by
  refine ⟨List.mergeSort_perm files _, ?_, ?_, ?_⟩
  · have hp := List.sorted_mergeSort fileRisk_le_trans fileRisk_le_total files
    exact hp.imp (by intro a b h; simpa using h)
  · intro f
    unfold calculateFileRisk
    exact Nat.min_le_right _ _
  · intro a b hab hsub
    exact List.pair_sublist_mergeSort fileRisk_le_trans fileRisk_le_total
      (by simpa using hab) hsub

/-- Claim C9 witness: two concrete equal-risk files keep their order. -/
theorem prioritizeFiles_spec_witness :
    [(⟨"a.js", "javascript", "x"⟩ : FileInfo), ⟨"b.js", "javascript", "y"⟩].Sublist
      (prioritizeFiles [⟨"a.js", "javascript", "x"⟩, ⟨"b.js", "javascript", "y"⟩]) :=
  (prioritizeFiles_spec [⟨"a.js", "javascript", "x"⟩, ⟨"b.js", "javascript", "y"⟩]).2.2.2
    ⟨"a.js", "javascript", "x"⟩ ⟨"b.js", "javascript", "y"⟩ (by decide)
    (List.Sublist.refl _)

theorem firstOccKeys_append (l : List LlmIssue) (i : LlmIssue) :
    firstOccKeys (l ++ [i]) =
      if issueKey i ∈ firstOccKeys l then firstOccKeys l
      else firstOccKeys l ++ [issueKey i] := by
  unfold firstOccKeys
  rw [List.foldl_append]
  rfl

theorem accFold_append (l : List LlmIssue) (i : LlmIssue) :
    (l ++ [i]).foldl (fun m j => jsMapSet m (issueKey j) j) [] =
      jsMapSet (l.foldl (fun m j => jsMapSet m (issueKey j) j) []) (issueKey i) i := by
  rw [List.foldl_append]
  rfl

theorem jsMapSet_pos (m : List (String × LlmIssue)) (k : String) (v : LlmIssue)
    (h : (m.any fun p => p.1 = k) = true) :
    jsMapSet m k v = m.map fun p => if p.1 = k then (k, v) else p := by
  unfold jsMapSet
  rw [if_pos h]

theorem jsMapSet_neg (m : List (String × LlmIssue)) (k : String) (v : LlmIssue)
    (h : ¬(m.any fun p => p.1 = k) = true) :
    jsMapSet m k v = m ++ [(k, v)] := by
  unfold jsMapSet
  rw [if_neg h]

theorem mem_firstOccKeys (k : String) (issues : List LlmIssue) :
    k ∈ firstOccKeys issues ↔ k ∈ issues.map issueKey := by
  induction issues using List.reverseRecOn with
  | nil => simp [firstOccKeys]
  | append_singleton l i ih =>
    rw [firstOccKeys_append]
    by_cases h : issueKey i ∈ firstOccKeys l
    · rw [if_pos h]
      simp only [List.map_append, List.map_cons, List.map_nil, List.mem_append,
        List.mem_singleton]
      constructor
      · intro hk
        exact Or.inl (ih.mp hk)
      · intro hk
        rcases hk with hk | hk
        · exact ih.mpr hk
        · rw [hk]
          exact h
    · rw [if_neg h]
      simp [ih]

theorem dedup_fold_invariant (issues : List LlmIssue) :
    ((issues.foldl (fun m i => jsMapSet m (issueKey i) i) []).map Prod.fst =
      firstOccKeys issues) ∧
    (∀ kv ∈ issues.foldl (fun m i => jsMapSet m (issueKey i) i) [],
      issueKey kv.2 = kv.1 ∧
      (issues.filter fun i => issueKey i == kv.1).getLast? = some kv.2) := by
  induction issues using List.reverseRecOn with
  | nil => exact ⟨rfl, by intro kv h; simp at h⟩
  | append_singleton l i ih =>
    obtain ⟨ihk, ihe⟩ := ih
    rw [accFold_append, firstOccKeys_append]
    by_cases hin : ((l.foldl (fun m j => jsMapSet m (issueKey j) j) []).any
        fun p => p.1 = issueKey i) = true
    · have hkey_mem : issueKey i ∈ firstOccKeys l := by
        rw [← ihk]
        rw [List.any_eq_true] at hin
        obtain ⟨p, hp, hpk⟩ := hin
        simp only [decide_eq_true_eq] at hpk
        exact List.mem_map.mpr ⟨p, hp, hpk⟩
      rw [if_pos hkey_mem, jsMapSet_pos _ _ _ hin]
      constructor
      · rw [← ihk, List.map_map]
        apply List.map_congr_left
        intro p _
        by_cases hpk : p.1 = issueKey i
        · simp [hpk]
        · simp [hpk]
      · intro kv hkv
        rw [List.mem_map] at hkv
        obtain ⟨p, hp, hpe⟩ := hkv
        by_cases hpk : p.1 = issueKey i
        · rw [if_pos hpk] at hpe
          subst hpe
          refine ⟨rfl, ?_⟩
          rw [List.filter_append]
          have hone : ([i].filter fun j => issueKey j == issueKey i) = [i] := by simp
          rw [hone, List.getLast?_concat]
        · rw [if_neg hpk] at hpe
          subst hpe
          obtain ⟨hk1, hk2⟩ := ihe p hp
          refine ⟨hk1, ?_⟩
          rw [List.filter_append]
          have hnone : ([i].filter fun j => issueKey j == p.1) = [] := by
            simp only [List.filter_cons, List.filter_nil]
            rw [if_neg]
            simp only [beq_iff_eq]
            exact fun hcon => hpk hcon.symm
          rw [hnone, List.append_nil]
          exact hk2
    · have hkey_nmem : issueKey i ∉ firstOccKeys l := by
        rw [← ihk]
        intro hmem
        rw [List.mem_map] at hmem
        obtain ⟨p, hp, hpk⟩ := hmem
        exact absurd (List.any_eq_true.mpr ⟨p, hp, by simp [hpk]⟩) hin
      rw [if_neg hkey_nmem, jsMapSet_neg _ _ _ hin]
      constructor
      · rw [List.map_append, ihk]
        rfl
      · intro kv hkv
        rw [List.mem_append] at hkv
        rcases hkv with hkv | hkv
        · obtain ⟨hk1, hk2⟩ := ihe kv hkv
          refine ⟨hk1, ?_⟩
          rw [List.filter_append]
          have hne : kv.1 ≠ issueKey i := by
            intro heq
            apply hkey_nmem
            rw [← heq, ← ihk]
            exact List.mem_map.mpr ⟨kv, hkv, rfl⟩
          have hnone : ([i].filter fun j => issueKey j == kv.1) = [] := by
            simp only [List.filter_cons, List.filter_nil]
            rw [if_neg]
            simp only [beq_iff_eq]
            exact fun hcon => hne hcon.symm
          rw [hnone, List.append_nil]
          exact hk2
        · rw [List.mem_singleton] at hkv
          subst hkv
          refine ⟨rfl, ?_⟩
          rw [List.filter_append]
          have hfl : (l.filter fun j => issueKey j == issueKey i) = [] := by
            rw [List.filter_eq_nil_iff]
            intro j hj
            simp only [beq_iff_eq]
            intro hjk
            apply hkey_nmem
            rw [mem_firstOccKeys]
            exact List.mem_map.mpr ⟨j, hj, hjk⟩
          rw [hfl]
          have hone : ([i].filter fun j => issueKey j == issueKey i) = [i] := by simp
          rw [hone]
          simp

/-- Claim C3 (corrected).  The de-duplication collapses findings by the
(file, line, message) key: the output keys are exactly the input keys in
order of first occurrence, and the finding kept for each key is the LAST
occurrence in input order (JS Map.set overwrites the value in place), not
the first. -/
theorem dedup_keeps_last_at_first_position :
    (∀ issues : List LlmIssue,
      (dedupIssues issues).map issueKey = firstOccKeys issues) ∧
    (∀ issues : List LlmIssue, ∀ j ∈ dedupIssues issues,
      (issues.filter fun i => issueKey i == issueKey j).getLast? = some j) := by
  constructor
  · intro issues
    unfold dedupIssues
    obtain ⟨hk, he⟩ := dedup_fold_invariant issues
    rw [← hk, List.map_map]
    apply List.map_congr_left
    intro kv hkv
    exact (he kv hkv).1
  · intro issues j hj
    unfold dedupIssues at hj
    rw [List.mem_map] at hj
    obtain ⟨kv, hkv, hje⟩ := hj
    obtain ⟨hk1, hk2⟩ := (dedup_fold_invariant issues).2 kv hkv
    subst hje
    rw [hk1]
    exact hk2

/-- Claim C3 witness at a concrete two-element duplicate list. -/
theorem dedup_keeps_last_at_first_position_witness :
    (dedupIssues [⟨"a.js", some 3, "Bug", "High", "t1", "m", "s1"⟩,
        ⟨"a.js", some 3, "Bug", "Low", "t2", "m", "s2"⟩]).map issueKey =
      firstOccKeys [⟨"a.js", some 3, "Bug", "High", "t1", "m", "s1"⟩,
        ⟨"a.js", some 3, "Bug", "Low", "t2", "m", "s2"⟩] ∧
    ([⟨"a.js", some 3, "Bug", "High", "t1", "m", "s1"⟩,
        (⟨"a.js", some 3, "Bug", "Low", "t2", "m", "s2"⟩ : LlmIssue)].filter fun i =>
      issueKey i == issueKey ⟨"a.js", some 3, "Bug", "Low", "t2", "m", "s2"⟩).getLast? =
      some ⟨"a.js", some 3, "Bug", "Low", "t2", "m", "s2"⟩ :=
  ⟨dedup_keeps_last_at_first_position.1
    [⟨"a.js", some 3, "Bug", "High", "t1", "m", "s1"⟩,
     ⟨"a.js", some 3, "Bug", "Low", "t2", "m", "s2"⟩],
   dedup_keeps_last_at_first_position.2
    [⟨"a.js", some 3, "Bug", "High", "t1", "m", "s1"⟩,
     ⟨"a.js", some 3, "Bug", "Low", "t2", "m", "s2"⟩]
    ⟨"a.js", some 3, "Bug", "Low", "t2", "m", "s2"⟩ (by decide)⟩

/-- Claim C3 counterexample: two findings with the same key but
different severities collapse to the SECOND one, not the first as
claimed. -/
theorem aggregate_dedup_keeps_last_not_first :
    (aggregateJSONResponses
      [⟨false, some ⟨"sum", 50, [⟨"a.js", some 3, "Bug", "High", "t1", "m", "s1"⟩,
        ⟨"a.js", some 3, "Bug", "Low", "t2", "m", "s2"⟩]⟩, ⟨1, 2, 3⟩, "a.js"⟩]).map
        Aggregated.issues = some [⟨"a.js", some 3, "Bug", "Low", "t2", "m", "s2"⟩] ∧
    issueKey ⟨"a.js", some 3, "Bug", "High", "t1", "m", "s1"⟩ =
      issueKey ⟨"a.js", some 3, "Bug", "Low", "t2", "m", "s2"⟩ ∧
    (⟨"a.js", some 3, "Bug", "Low", "t2", "m", "s2"⟩ : LlmIssue) ≠
      ⟨"a.js", some 3, "Bug", "High", "t1", "m", "s1"⟩ := by decide

theorem cleanLoop_mem : ∀ (lines : List String) (ihk : Bool) (acc : List String) (out : String),
    out ∈ cleanLoop ihk acc lines →
    out ∈ acc ∨ ∃ src ∈ lines, out = dropMarker src ∧
      (isAddLine src = true ∨ isCtxLine src = true) := by
  intro lines
  induction lines with
  | nil =>
    intro ihk acc out hout
    exact Or.inl hout
  | cons l ls ihrec =>
    intro ihk acc out hout
    simp only [cleanLoop] at hout
    split_ifs at hout with h1 h2 h3 h4 h5
    · rcases ihrec ihk acc out hout with h | ⟨src, hs, he, hp⟩
      · exact Or.inl h
      · exact Or.inr ⟨src, List.mem_cons_of_mem _ hs, he, hp⟩
    · rcases ihrec true acc out hout with h | ⟨src, hs, he, hp⟩
      · exact Or.inl h
      · exact Or.inr ⟨src, List.mem_cons_of_mem _ hs, he, hp⟩
    · rcases ihrec ihk (acc ++ [dropMarker l]) out hout with h | ⟨src, hs, he, hp⟩
      · rcases List.mem_append.mp h with ha | hb
        · exact Or.inl ha
        · rw [List.mem_singleton] at hb
          exact Or.inr ⟨l, List.mem_cons_self _ _, hb, Or.inl h4⟩
      · exact Or.inr ⟨src, List.mem_cons_of_mem _ hs, he, hp⟩
    · rcases ihrec ihk (acc ++ [dropMarker l]) out hout with h | ⟨src, hs, he, hp⟩
      · rcases List.mem_append.mp h with ha | hb
        · exact Or.inl ha
        · rw [List.mem_singleton] at hb
          have hctx : isCtxLine l = true := by
            rw [Bool.and_eq_true] at h5
            exact h5.1
          exact Or.inr ⟨l, List.mem_cons_self _ _, hb, Or.inr hctx⟩
      · exact Or.inr ⟨src, List.mem_cons_of_mem _ hs, he, hp⟩
    · rcases ihrec ihk acc out hout with h | ⟨src, hs, he, hp⟩
      · exact Or.inl h
      · exact Or.inr ⟨src, List.mem_cons_of_mem _ hs, he, hp⟩
    · rcases ihrec ihk acc out hout with h | ⟨src, hs, he, hp⟩
      · exact Or.inl h
      · exact Or.inr ⟨src, List.mem_cons_of_mem _ hs, he, hp⟩

theorem plus_excludes (l : String) (h : strStartsWith l "+" = true) :
    strStartsWith l "-" = false ∧ strStartsWith l "@@" = false := by
  unfold strStartsWith at h ⊢
  cases hd : l.data with
  | nil =>
    rw [hd] at h
    simp [show "+".data = ['+'] from rfl, List.isPrefixOf] at h
  | cons c cs =>
    rw [hd] at h
    rw [show "+".data = ['+'] from rfl] at h
    simp only [List.isPrefixOf, Bool.and_eq_true, beq_iff_eq] at h
    obtain ⟨hc, -⟩ := h
    subst hc
    constructor
    · rw [show "-".data = ['-'] from rfl]
      simp [List.isPrefixOf]
    · rw [show "@@".data = ['@', '@'] from rfl]
      simp [List.isPrefixOf]

theorem space_excludes (l : String) (h : strStartsWith l " " = true) :
    strStartsWith l "-" = false ∧ strStartsWith l "@@" = false ∧
    strStartsWith l "+++" = false := by
  unfold strStartsWith at h ⊢
  cases hd : l.data with
  | nil =>
    rw [hd] at h
    simp [show " ".data = [' '] from rfl, List.isPrefixOf] at h
  | cons c cs =>
    rw [hd] at h
    rw [show " ".data = [' '] from rfl] at h
    simp only [List.isPrefixOf, Bool.and_eq_true, beq_iff_eq] at h
    obtain ⟨hc, -⟩ := h
    subst hc
    refine ⟨?_, ?_, ?_⟩
    · rw [show "-".data = ['-'] from rfl]
      simp [List.isPrefixOf]
    · rw [show "@@".data = ['@', '@'] from rfl]
      simp [List.isPrefixOf]
    · rw [show "+++".data = ['+', '+', '+'] from rfl]
      simp [List.isPrefixOf]

/-- Claim C5 (corrected).  Every kept cleaned line is the marker-stripped
text of an addition or context line of the raw diff; no line beginning
with a deletion marker, file header or hunk header ever contributes a
kept line, and a file whose cleaned content is empty is excluded from the
result set entirely.  However the stripped text itself may begin with a
dash or look like a header, so the claimed syntactic property of the
output lines does not hold. -/
theorem cleaned_lines_from_additions_and_context :
    (∀ (lines : List String) (out : String), out ∈ cleanFileDiffLines lines →
      ∃ src ∈ lines, out = dropMarker src ∧
        (isAddLine src = true ∨ isCtxLine src = true) ∧
        strStartsWith src "-" = false ∧ strStartsWith src "@@" = false ∧
        strStartsWith src "+++" = false) ∧
    (∀ (fds : List FileDiff) (g : FileInfo), g ∈ cleanAndStructureFiles fds →
      g.changes ≠ "" ∧
      ∃ fd ∈ fds, g = ⟨fd.filename, detectLanguage fd.filename, cleanFileDiff fd.patch⟩) := by
  constructor
  · intro lines out hout
    rcases cleanLoop_mem lines false [] out hout with h | ⟨src, hs, he, hp⟩
    · simp at h
    · refine ⟨src, hs, he, hp, ?_⟩
      rcases hp with hadd | hctx
      · have hadd2 := hadd
        rw [isAddLine, Bool.and_eq_true] at hadd2
        obtain ⟨hplus, hnotppp⟩ := hadd2
        obtain ⟨hm, hat⟩ := plus_excludes src hplus
        exact ⟨hm, hat, by simpa using hnotppp⟩
      · obtain ⟨hm, hat, hppp⟩ := space_excludes src hctx
        exact ⟨hm, hat, hppp⟩
  · intro fds g hg
    unfold cleanAndStructureFiles at hg
    rw [List.mem_filterMap] at hg
    obtain ⟨fd, hfd, hf⟩ := hg
    simp only at hf
    by_cases hc : cleanFileDiff fd.patch = "" ∨ strTrim (cleanFileDiff fd.patch) = ""
    · rw [if_pos hc] at hf
      exact absurd hf (by simp)
    · rw [if_neg hc] at hf
      have hg2 : g = ⟨fd.filename, detectLanguage fd.filename, cleanFileDiff fd.patch⟩ :=
        (Option.some_inj.mp hf).symm
      refine ⟨?_, fd, hfd, hg2⟩
      rw [hg2]
      intro hcon
      exact hc (Or.inl hcon)

/-- Claim C5 witness at a concrete one-addition diff. -/
theorem cleaned_lines_from_additions_and_context_witness :
    ∃ src ∈ ["@@ -1 +1 @@", "+console.log(1)"], "console.log(1)" = dropMarker src ∧
      (isAddLine src = true ∨ isCtxLine src = true) ∧
      strStartsWith src "-" = false ∧ strStartsWith src "@@" = false ∧
      strStartsWith src "+++" = false :=
  cleaned_lines_from_additions_and_context.1
    ["@@ -1 +1 @@", "+console.log(1)"] "console.log(1)" (by decide)

/-- Claim C5 counterexample: an added code line whose text starts with a
dash (or even with three dashes) survives into the cleaned content, so a
cleaned line can begin with a deletion marker or header marker. -/
theorem cleaned_line_can_begin_with_deletion_marker :
    splitLines (cleanFileDiff "@@ -1 +1 @@\n+-x") = ["-x"] ∧
    strStartsWith "-x" "-" = true ∧
    splitLines (cleanFileDiff "@@ -1 +1 @@\n+--- hi") = ["--- hi"] ∧
    strStartsWith "--- hi" "---" = true := by decide

theorem cleanLoop_head_stable : ∀ (lines : List String) (ihk : Bool) (a : String)
    (acc : List String), (cleanLoop ihk (a :: acc) lines).head? = some a := by
  intro lines
  induction lines with
  | nil => intro ihk a acc; rfl
  | cons l ls ihrec =>
    intro ihk a acc
    simp only [cleanLoop]
    split_ifs with h1 h2 h3 h4 h5
    · exact ihrec ihk a acc
    · exact ihrec true a acc
    · rw [List.cons_append]
      exact ihrec ihk a (acc ++ [dropMarker l])
    · rw [List.cons_append]
      exact ihrec ihk a (acc ++ [dropMarker l])
    · exact ihrec ihk a acc
    · exact ihrec ihk a acc

theorem cleanLoop_no_additions : ∀ (lines : List String) (ihk : Bool),
    (∀ l ∈ lines, isAddLine l = false) → cleanLoop ihk [] lines = [] := by
  intro lines
  induction lines with
  | nil => intro ihk _; rfl
  | cons l ls ihrec =>
    intro ihk hno
    simp only [cleanLoop]
    split_ifs with h1 h2 h3 h4 h5
    · exact ihrec ihk fun j hj => hno j (List.mem_cons_of_mem _ hj)
    · exact ihrec true fun j hj => hno j (List.mem_cons_of_mem _ hj)
    · exact absurd h4 (by rw [hno l (List.mem_cons_self _ _)]; simp)
    · rw [Bool.and_eq_true] at h5
      obtain ⟨-, habs⟩ := h5
      simp [List.isEmpty] at habs
    · exact ihrec ihk fun j hj => hno j (List.mem_cons_of_mem _ hj)
    · exact ihrec ihk fun j hj => hno j (List.mem_cons_of_mem _ hj)

theorem cleanLoop_first_is_addition : ∀ (lines : List String) (ihk : Bool) (h : String),
    (cleanLoop ihk [] lines).head? = some h →
    ∃ src ∈ lines, isAddLine src = true ∧ h = dropMarker src := by
  intro lines
  induction lines with
  | nil =>
    intro ihk h hout
    simp [cleanLoop] at hout
  | cons l ls ihrec =>
    intro ihk h hout
    simp only [cleanLoop] at hout
    split_ifs at hout with h1 h2 h3 h4 h5
    · obtain ⟨src, hs, ha, he⟩ := ihrec ihk h hout
      exact ⟨src, List.mem_cons_of_mem _ hs, ha, he⟩
    · obtain ⟨src, hs, ha, he⟩ := ihrec true h hout
      exact ⟨src, List.mem_cons_of_mem _ hs, ha, he⟩
    · rw [List.nil_append, cleanLoop_head_stable] at hout
      refine ⟨l, List.mem_cons_self _ _, h4, ?_⟩
      exact (Option.some_inj.mp hout).symm
    · rw [Bool.and_eq_true] at h5
      obtain ⟨-, habs⟩ := h5
      simp [List.isEmpty] at habs
    · obtain ⟨src, hs, ha, he⟩ := ihrec ihk h hout
      exact ⟨src, List.mem_cons_of_mem _ hs, ha, he⟩
    · obtain ⟨src, hs, ha, he⟩ := ihrec ihk h hout
      exact ⟨src, List.mem_cons_of_mem _ hs, ha, he⟩

/-- Claim C10 (corrected).  A context line is kept only when a line has
already been kept for the file: a file with no addition lines cleans to
nothing, and the first kept line always originates from an addition.  But
the kept-lines accumulator is per file, not per hunk, so a later hunk
containing only context and deletion lines does contribute its context
lines once an earlier hunk had an addition. -/
theorem context_requires_prior_kept_line :
    (∀ (lines : List String) (ihk : Bool), (∀ l ∈ lines, isAddLine l = false) →
      cleanLoop ihk [] lines = []) ∧
    (∀ (lines : List String) (ihk : Bool) (h : String),
      (cleanLoop ihk [] lines).head? = some h →
      ∃ src ∈ lines, isAddLine src = true ∧ h = dropMarker src) ∧
    (∀ lines : List String, (∀ l ∈ lines, isAddLine l = false) →
      cleanFileDiffLines lines = []) :=
  ⟨cleanLoop_no_additions, cleanLoop_first_is_addition,
   fun lines hno => cleanLoop_no_additions lines false hno⟩

/-- Claim C10 witness: a context-and-deletion-only file cleans to nothing. -/
theorem context_requires_prior_kept_line_witness :
    cleanFileDiffLines ["@@ -5 +5 @@", " x", "-y"] = [] :=
  context_requires_prior_kept_line.2.2 ["@@ -5 +5 @@", " x", "-y"] (by decide)

/-- Claim C10 counterexample: after an addition in a previous hunk, a
hunk with only a context line and a deletion line contributes its context
line to the cleaned content. -/
theorem context_only_hunk_contributes_after_addition :
    cleanFileDiffLines ["@@ -1 +1 @@", "+a", "@@ -5 +5 @@", " x", "-y"] = ["a", "x"] ∧
    (∀ l ∈ [" x", "-y"], isAddLine l = false) ∧
    cleanFileDiffLines ["@@ -1 +1 @@", "+a", "@@ -5 +5 @@", " x", "-y"] ≠ ["a"] := by decide

theorem estimateTokens_eq_ceil (s : String) :
    estimateTokens s = ⌈(s.data.length : ℚ) / 4⌉₊ := by
  unfold estimateTokens
  have hgen : ∀ n : Nat, ((n + 3) / 4 : Nat) = ⌈(n : ℚ) / 4⌉₊ := by
    intro n
    apply le_antisymm
    · by_cases hk : (n + 3) / 4 = 0
      · simp [hk]
      · have hlt : (n + 3) / 4 - 1 < ⌈(n : ℚ) / 4⌉₊ := by
          rw [Nat.lt_ceil, lt_div_iff₀ (by norm_num : (0 : ℚ) < 4)]
          have h4 : ((n + 3) / 4) * 4 ≤ n + 3 := Nat.div_mul_le_self _ _
          have hc : ((n + 3) / 4 - 1) * 4 < n := by omega
          exact_mod_cast hc
        omega
    · rw [Nat.ceil_le, div_le_iff₀ (by norm_num : (0 : ℚ) < 4)]
      have h := Nat.div_add_mod (n + 3) 4
      have h2 : (n + 3) % 4 < 4 := Nat.mod_lt _ (by norm_num)
      have hc : n ≤ (n + 3) / 4 * 4 := by omega
      exact_mod_cast hc
  by_cases hs : s = ""
  · rw [if_pos hs, hs]
    simp
  · rw [if_neg hs]
    exact hgen s.data.length

theorem chopChars_spec (maxChars : Nat) (h : 1 ≤ maxChars) (cs : List Char) :
    (chopChars maxChars cs).flatten = cs ∧
    ∀ p ∈ chopChars maxChars cs, p.length ≤ maxChars := by
  rw [chopChars]
  have hm0 : ¬maxChars = 0 := by omega
  rw [if_neg hm0]
  by_cases hnil : cs = []
  · rw [if_pos hnil]
    subst hnil
    exact ⟨rfl, by intro p hp; simp at hp⟩
  · rw [if_neg hnil]
    by_cases hle : cs.length ≤ maxChars
    · rw [if_pos hle]
      refine ⟨by simp, ?_⟩
      intro p hp
      rw [List.mem_singleton] at hp
      subst hp
      exact hle
    · rw [if_neg hle]
      have hlt : (cs.drop maxChars).length < cs.length := by
        rw [List.length_drop]
        omega
      obtain ⟨ih1, ih2⟩ := chopChars_spec maxChars h (cs.drop maxChars)
      constructor
      · rw [List.flatten_cons, ih1, List.take_append_drop]
      · intro p hp
        rw [List.mem_cons] at hp
        rcases hp with hp | hp
        · subst hp
          rw [List.length_take]
          omega
        · exact ih2 p hp
termination_by cs.length

theorem estimateTokens_piece_le (maxTokens : Nat) (p : List Char)
    (hp : p.length ≤ maxTokens * 4) :
    estimateTokens (String.mk p) ≤ maxTokens := by
  unfold estimateTokens
  by_cases hnil : String.mk p = ""
  · rw [if_pos hnil]
    exact Nat.zero_le _
  · rw [if_neg hnil]
    have hdata : (String.mk p).data = p := rfl
    rw [hdata]
    have hle : p.length + 3 ≤ 3 + maxTokens * 4 := by omega
    calc (p.length + 3) / 4 ≤ (3 + maxTokens * 4) / 4 := Nat.div_le_div_right hle
    _ = (3 + 4 * maxTokens) / 4 := by ring_nf
    _ = 3 / 4 + maxTokens := Nat.add_mul_div_left 3 maxTokens (by norm_num : (0 : Nat) < 4)
    _ = maxTokens := by norm_num

theorem chunkFold_invariant (maxTokens : Nat) (hmax : 1 ≤ maxTokens) :
    ∀ (lines : List String) (st : ChunkState),
      (∀ c ∈ st.chunks, (c.map estimateTokens).sum ≤ maxTokens) →
      (st.current.map estimateTokens).sum = st.currentTokens →
      st.currentTokens ≤ maxTokens →
      (st.current = [] → st.currentTokens = 0) →
      (∀ c ∈ (chunkFold maxTokens st lines).chunks,
        (c.map estimateTokens).sum ≤ maxTokens) ∧
      ((chunkFold maxTokens st lines).current.map estimateTokens).sum =
        (chunkFold maxTokens st lines).currentTokens ∧
      (chunkFold maxTokens st lines).currentTokens ≤ maxTokens ∧
      ((chunkFold maxTokens st lines).current = [] →
        (chunkFold maxTokens st lines).currentTokens = 0) := by
  intro lines
  induction lines with
  | nil =>
    intro st h1 h2 h3 h4
    exact ⟨h1, h2, h3, h4⟩
  | cons line rest ihrec =>
    intro st h1 h2 h3 h4
    simp only [chunkFold]
    split_ifs with hbig hcur hflush
    · -- oversized line, current chunk was empty
      apply ihrec
      · intro c hc
        rw [List.mem_append] at hc
        rcases hc with hc | hc
        · exact h1 c hc
        · rw [List.mem_map] at hc
          obtain ⟨piece, hpc, hpe⟩ := hc
          subst hpe
          have hplen := (chopChars_spec (maxTokens * 4) (by omega) line.data).2 piece hpc
          simpa using estimateTokens_piece_le maxTokens piece hplen
      · rfl
      · exact Nat.zero_le _
      · intro _; rfl
    · -- oversized line, current chunk flushed first
      apply ihrec
      · intro c hc
        rw [List.mem_append] at hc
        rcases hc with hc | hc
        · rw [List.mem_append] at hc
          rcases hc with hc | hc
          · exact h1 c hc
          · rw [List.mem_singleton] at hc
            subst hc
            rw [h2]
            exact h3
        · rw [List.mem_map] at hc
          obtain ⟨piece, hpc, hpe⟩ := hc
          subst hpe
          have hplen := (chopChars_spec (maxTokens * 4) (by omega) line.data).2 piece hpc
          simpa using estimateTokens_piece_le maxTokens piece hplen
      · rfl
      · exact Nat.zero_le _
      · intro _; rfl
    · -- token budget exceeded: flush current, start a new chunk with this line
      apply ihrec
      · intro c hc
        rw [List.mem_append] at hc
        rcases hc with hc | hc
        · exact h1 c hc
        · rw [List.mem_singleton] at hc
          subst hc
          rw [h2]
          exact h3
      · simp
      · exact Nat.le_of_not_lt hbig
      · intro habs
        simp at habs
    · -- append the line to the current chunk
      apply ihrec
      · exact h1
      · simp [h2]
      · push_neg at hflush
        by_cases hce : st.current = []
        · have h0 : st.currentTokens = 0 := h4 hce
          rw [h0, Nat.zero_add]
          exact Nat.le_of_not_lt hbig
        · rcases Nat.lt_or_ge maxTokens (st.currentTokens + estimateTokens line) with hlt | hge
          · exact absurd (hflush hlt) hce
          · exact hge
      · intro habs
        simp at habs

theorem chunkFold_flatten (maxTokens : Nat) :
    ∀ (lines : List String) (st : ChunkState),
      (∀ l ∈ lines, estimateTokens l ≤ maxTokens) →
      (chunkFold maxTokens st lines).chunks.flatten ++ (chunkFold maxTokens st lines).current =
        st.chunks.flatten ++ st.current ++ lines := by
  intro lines
  induction lines with
  | nil =>
    intro st _
    simp [chunkFold]
  | cons line rest ihrec =>
    intro st hsmall
    simp only [chunkFold]
    split_ifs with hbig hcur hflush
    · exact absurd hbig (Nat.not_lt.mpr (hsmall line (List.mem_cons_self _ _)))
    · exact absurd hbig (Nat.not_lt.mpr (hsmall line (List.mem_cons_self _ _)))
    · rw [ihrec _ fun l hl => hsmall l (List.mem_cons_of_mem _ hl)]
      simp [List.append_assoc]
    · rw [ihrec _ fun l hl => hsmall l (List.mem_cons_of_mem _ hl)]
      simp [List.append_assoc]

theorem chunkFileContentCore_eq (lines : List String) (maxTokens : Nat) :
    chunkFileContentCore lines maxTokens =
      (chunkFold maxTokens ⟨[], [], 0⟩ lines).chunks ++
        (if (chunkFold maxTokens ⟨[], [], 0⟩ lines).current = [] then []
         else [(chunkFold maxTokens ⟨[], [], 0⟩ lines).current]) := rfl

/-- Claim C6 (corrected).  The token estimate is the ceiling of length
times 0.25; chunking splits by line preserving the original line order
(the chunks flatten back to the lines), and the fallback splits an
oversized line into raw character pieces of at most maxChars characters
that concatenate back to the line.  The enforced bound is that the SUM of
the per-line token estimates of each chunk is at most the maximum; the
estimate of the joined chunk itself can exceed the maximum because the
newline separators are not counted by the loop. -/
theorem chunking_spec :
    (∀ s : String, estimateTokens s = ⌈(s.data.length : ℚ) / 4⌉₊) ∧
    (∀ (lines : List String) (maxTokens : Nat), 1 ≤ maxTokens →
      ∀ chunk ∈ chunkFileContentCore lines maxTokens,
        (chunk.map estimateTokens).sum ≤ maxTokens) ∧
    (∀ (lines : List String) (maxTokens : Nat),
      (∀ l ∈ lines, estimateTokens l ≤ maxTokens) →
      (chunkFileContentCore lines maxTokens).flatten = lines) ∧
    (∀ (maxChars : Nat) (cs : List Char), 1 ≤ maxChars →
      (chopChars maxChars cs).flatten = cs ∧
      ∀ p ∈ chopChars maxChars cs, p.length ≤ maxChars) := by
  refine ⟨estimateTokens_eq_ceil, ?_, ?_, fun maxChars cs h => chopChars_spec maxChars h cs⟩
  · intro lines maxTokens hmax chunk hchunk
    obtain ⟨hc, hsum, hle, -⟩ := chunkFold_invariant maxTokens hmax lines ⟨[], [], 0⟩
      (by intro c hc; simp at hc) rfl (Nat.zero_le _) (fun _ => rfl)
    rw [chunkFileContentCore_eq, List.mem_append] at hchunk
    rcases hchunk with hchunk | hchunk
    · exact hc chunk hchunk
    · by_cases hce : (chunkFold maxTokens ⟨[], [], 0⟩ lines).current = []
      · rw [if_pos hce] at hchunk
        simp at hchunk
      · rw [if_neg hce] at hchunk
        rw [List.mem_singleton] at hchunk
        subst hchunk
        rw [hsum]
        exact hle
  · intro lines maxTokens hsmall
    have hjoin := chunkFold_flatten maxTokens lines ⟨[], [], 0⟩ hsmall
    rw [chunkFileContentCore_eq]
    by_cases hce : (chunkFold maxTokens ⟨[], [], 0⟩ lines).current = []
    · rw [if_pos hce]
      rw [hce, List.append_nil] at hjoin
      simpa using hjoin
    · rw [if_neg hce]
      rw [List.flatten_append]
      simpa using hjoin

/-- Claim C6 witness: the per-line estimate sum of a concrete chunk. -/
theorem chunking_spec_witness :
    (["aaaa", "aaaa"].map estimateTokens).sum ≤ 2 :=
  chunking_spec.2.1 ["aaaa", "aaaa", "aaaa"] 2 (by decide) ["aaaa", "aaaa"] (by decide)

/-- Claim C6 counterexample: three four-character lines under limit 2
produce a chunk whose own token estimate is 3, exceeding the limit the
claim asserts for every chunk. -/
theorem chunk_estimate_exceeds_limit :
    chunkFileContent "aaaa\naaaa\naaaa" 2 = ["aaaa\naaaa", "aaaa"] ∧
    estimateTokens "aaaa\naaaa\naaaa" = 4 ∧ ¬((4 : Nat) ≤ 2) ∧
    estimateTokens "aaaa\naaaa" = 3 ∧ ¬((3 : Nat) ≤ 2) := by decide
